import Mathlib

/-!
Verification of the segment-lifecycle core of golucene: deletion policies,
the serial merge scheduler, the index file deleter's reference counting,
lock acquisition with timeout, and the block-based byte store readers.
Each definition is a shallow embedding of the corresponding Go function.
-/

namespace GoLucene

/-! Deletion policies (index/IndexDeletionPolicy.java port).

Commits are ordered oldest-first; a policy deletes commits by calling
Delete() on list entries.  We model an onInit/onCommit call by the list of
commits it deletes (in call order, by position) together with the returned
error (`none` is Go's nil). -/

namespace KeepOnlyLastCommitDeletionPolicy

/-- Model of the Go loop
`for i, limit := 0, len(commits); i < limit-1; i++ { commits[i].Delete() }`
followed by `return nil`.  The loop visits indices `0 .. limit-2`; for an
empty or singleton list `limit-1 <= 0` and the loop body never runs, which
in Nat arithmetic is `List.range (commits.length - 1) = []`. -/
def onCommit (commits : List α) : List α × Option Unit :=
  ((List.range (commits.length - 1)).filterMap fun i => commits[i]?, none)

/-- Model of `onInit`, whose Go body is `return p.onCommit(commits)`. -/
def onInit (commits : List α) : List α × Option Unit :=
  onCommit commits

end KeepOnlyLastCommitDeletionPolicy

/-! SerialMergeScheduler (index/SerialMergeScheduler.java port).

The writer is modelled by its merge queue (a list, `nextMerge` pops the
head) and by `exec : M -> Option E`, the outcome of `writer.merge` on each
merge (`none` is success).  `Merge` returns the list of merges actually
executed (in order), the queue left behind, and the returned error.

The Go loop is
`for merge := writer.nextMerge(); merge != nil && err == nil; merge = writer.nextMerge() { err = writer.merge(merge) }`;
note that after a failing `writer.merge` the post statement still pops one
further merge from the queue before the condition `err == nil` stops the
loop, so that merge is dequeued without being executed. -/

namespace SerialMergeScheduler

def Merge (exec : M → Option E) : List M → List M × List M × Option E
  | [] => ([], [], none)
  | m :: rest =>
    match exec m with
    | none =>
        let r := Merge exec rest
        (m :: r.1, r.2.1, r.2.2)
    | some e => ([m], rest.drop 1, some e)

end SerialMergeScheduler

/-- Execution outcome used in the C2 counterexample: merge 1 fails with
error 7, every other merge succeeds. -/
def mergeExecCE : Nat → Option Nat := fun m => if m = 1 then some 7 else none

/-! Lock acquisition (store/Lock.java port).

`LockImpl.ObtainWithin` is modelled over an abstract stream
`obtain : Nat -> Bool x Option E` giving the outcome of the k-th call to
`lock.self.Obtain()` (0-indexed).  Sleeping and looping are made explicit:
the model counts Obtain attempts and `time.Sleep(LOCK_POOL_INTERVAL)` calls,
and the loop is run on fuel — a `none` overall result means the loop was
still running when the fuel ran out (models non-termination).  The
`assert2` on an invalid `lockWaitTimeout` is modelled as the `panicked`
outcome. -/

def LOCK_POOL_INTERVAL : Int := 1000

def LOCK_OBTAIN_WAIT_FOREVER : Int := -1

inductive LockError (E : Type) where
  | obtainErr (e : E)
  | timeoutErr
deriving DecidableEq

structure LockRun (E : Type) where
  locked : Bool
  err : Option (LockError E)
  attempts : Nat
  sleeps : Nat
deriving DecidableEq

inductive LockOutcome (E : Type) where
  | panicked
  | done (r : LockRun E)
deriving DecidableEq

/-- Model of the Go loop
`for sleepCount := int64(0); !locked; locked, err = lock.self.Obtain() { ... }`
of `LockImpl.ObtainWithin`: while not locked, either the timeout branch
returns a timeout error (when `lockWaitTimeout != LOCK_OBTAIN_WAIT_FOREVER`
and `sleepCount >= maxSleepCount`), or `sleepCount` is incremented, one
interval is slept and the next Obtain outcome is taken.  On exit with
`locked` true the error of the last Obtain call is returned alongside. -/
def obtainLoop (obtain : Nat → Bool × Option E) (lockWaitTimeout maxSleepCount : Int) :
    Nat → Bool → Option E → Int → Nat → Nat → Option (LockRun E)
  | _, true, err, _, attempts, sleeps =>
      some ⟨true, err.map LockError.obtainErr, attempts, sleeps⟩
  | 0, false, _, _, _, _ => none
  | fuel + 1, false, _, sleepCount, attempts, sleeps =>
      if lockWaitTimeout ≠ LOCK_OBTAIN_WAIT_FOREVER ∧ maxSleepCount ≤ sleepCount then
        some ⟨false, some LockError.timeoutErr, attempts, sleeps⟩
      else
        obtainLoop obtain lockWaitTimeout maxSleepCount fuel
          (obtain attempts).1 (obtain attempts).2
          (sleepCount + 1) (attempts + 1) (sleeps + 1)

namespace LockImpl

/-- Model of `LockImpl.ObtainWithin`: a first `Obtain()` call whose error,
if any, is returned at once; then the `assert2` validity check on
`lockWaitTimeout` (panic on a negative value other than the wait-forever
sentinel); then `maxSleepCount := lockWaitTimeout / LOCK_POOL_INTERVAL`
(Go int64 division truncates toward zero, as `Int.div` does) and the
polling loop. -/
def ObtainWithin (obtain : Nat → Bool × Option E) (lockWaitTimeout : Int)
    (fuel : Nat) : Option (LockOutcome E) :=
  match (obtain 0).2 with
  | some e => some (LockOutcome.done ⟨(obtain 0).1, some (LockError.obtainErr e), 1, 0⟩)
  | none =>
    if lockWaitTimeout < 0 ∧ lockWaitTimeout ≠ LOCK_OBTAIN_WAIT_FOREVER then
      some LockOutcome.panicked
    else
      (obtainLoop obtain lockWaitTimeout (Int.tdiv lockWaitTimeout LOCK_POOL_INTERVAL)
        fuel (obtain 0).1 none 0 1 0).map LockOutcome.done

end LockImpl

/-- An Obtain that always returns `(false, nil)`. -/
def alwaysFailObtain : Nat → Bool × Option Unit := fun _ => (false, none)

/-- An Obtain whose every call returns `(false, error 42)`. -/
def errObtain : Nat → Bool × Option Nat := fun _ => (false, some 42)

/-- An Obtain whose first call already succeeds. -/
def succeedObtain : Nat → Bool × Option Nat := fun _ => (true, none)

/-- An Obtain over `Unit` errors whose first call succeeds, for the C7
witness. -/
def onceObtain : Nat → Bool × Option Unit := fun _ => (true, none)

/-! BytesStore readers (index/bytes.go).

Byte values are modelled as Nat (the claims do not depend on the 0..255
range).  `goCopy dst src` is Go's `copy(dst, src)`: it overwrites the first
`min (len dst) (len src)` entries of `dst` with those of `src` and leaves
the rest of `dst` alone. -/

def goCopy (dst src : List Nat) : List Nat :=
  src.take (min dst.length src.length) ++ dst.drop (min dst.length src.length)

namespace ForwardBytesReader

structure ReadResult where
  block : List Nat
  buf : List Nat
  pos : Int
  n : Nat
  err : Option Unit
deriving DecidableEq

/-- Model of the `ReadBytes` closure of `newForwardBytesReader` (the reader
`BytesStore.forwardReader` returns for a single-block store):
`copy(bytes[self.pos:], buf); self.pos += int32(len(buf)); return len(buf), nil`.
The result records the block contents and the caller's buffer after the
call, the new position, and the returned pair. -/
def ReadBytes (block : List Nat) (pos : Int) (buf : List Nat) : ReadResult :=
  let dst := block.drop pos.toNat
  { block := block.take pos.toNat ++ goCopy dst buf,
    buf := buf,
    pos := pos + buf.length,
    n := buf.length,
    err := none }

end ForwardBytesReader

/-! Multi-block forward reader of a BytesStore
(`BytesStore.forwardReader`, the `len(bs.blocks) != 1` branch).

`newBytesStore` sets `blockSize := 1 << blockBits` and
`blockMask := blockSize - 1`.  The reader keeps `nextBuffer` and
`nextRead` as uint32 fields; `setPosition` also loads
`bs.blocks[bufferIndex]` into `current`, recorded here as the block index.
uint32 truncation is written as `% U32`; the claims concern positions
within the written range, where `blockBits < 32` keeps the Go
`uint32(1) << blockBits` shift from wrapping. -/

def U32 : Nat := 2 ^ 32

namespace ByteStoreForwardReader

structure PosState where
  nextBuffer : Nat
  nextRead : Nat
  bufferIndex : Nat
deriving DecidableEq

/-- Model of the reader's `setPosition` closure:
`bufferIndex := pos >> bs.blockBits; self.nextBuffer = uint32(bufferIndex + 1);`
`self.current = bs.blocks[bufferIndex]; self.nextRead = uint32(pos) & bs.blockMask`.
For a non-negative int64 `pos`, the arithmetic right shift is division by
`2 ^ blockBits`, and masking the uint32 truncation of `pos` with
`blockSize - 1` is `% 2 ^ blockBits` after `% U32`. -/
def setPosition (blockBits : Nat) (pos : Nat) : PosState :=
  let bufferIndex := pos / 2 ^ blockBits
  { nextBuffer := (bufferIndex + 1) % U32,
    nextRead := (pos % U32) % 2 ^ blockBits,
    bufferIndex := bufferIndex }

/-- Model of the reader's `getPosition` closure:
`(int64(self.nextBuffer)-1)*int64(bs.blockSize) + int64(self.nextRead)`. -/
def getPosition (blockBits : Nat) (st : PosState) : Int :=
  ((st.nextBuffer : Int) - 1) * (2 ^ blockBits : Int) + (st.nextRead : Int)

end ByteStoreForwardReader

namespace IndexFileDeleter

/-- Modelled from the spec: the Index File Deleter's state.  The Go
implementation of `IndexFileDeleter.checkpoint` is missing from the source
(`panic("not implemented yet")`), so the deleter's state is taken from
sections 3 and 4.4 of the specification: a reference-count table over file
names, the files of the previously checkpointed (uncommitted) generation,
the retained commit points (each a generation's file list, oldest first),
and the set of files currently present in the container. -/
structure State (F : Type) where
  refCount : F → Int
  lastFiles : List F
  commits : List (List F)
  container : List F

def initState : State F :=
  { refCount := fun _ => 0, lastFiles := [], commits := [], container := [] }

variable {F : Type} [DecidableEq F]

/-- Number of occurrences of a file in a file list. -/
def natCount (f : F) (l : List F) : Nat := l.count f

/-- Number of generations in a commit list that name the file `f`. -/
def commitCount (f : F) (cs : List (List F)) : Nat :=
  cs.countP fun c => decide (f ∈ c)

/-- Modelled from the spec: increment a file's reference count. -/
def incRef (st : State F) (f : F) : State F :=
  { st with refCount := fun g => if g = f then st.refCount f + 1 else st.refCount g }

/-- Modelled from the spec: decrement a file's reference count; a file whose
count reaches zero is deleted from the container immediately. -/
def decRef (st : State F) (f : F) : State F :=
  { st with
    refCount := fun g => if g = f then st.refCount f - 1 else st.refCount g,
    container :=
      if st.refCount f - 1 ≤ 0 then st.container.filter (fun g => g != f)
      else st.container }

def incRefAll (st : State F) (files : List F) : State F := files.foldl incRef st

def decRefAll (st : State F) (files : List F) : State F := files.foldl decRef st

/-- The writer has written a generation's files into the container before
handing the generation to the deleter. -/
def addToContainer (st : State F) (files : List F) : State F :=
  { st with
    container := files.foldl (fun c f => if f ∈ c then c else f :: c) st.container }

/-- The commits a policy consultation elects to delete: the policy answers
the ordered commit list with deletion flags (missing flags default to
keeping the commit). -/
def deletedCommits (policy : List (List F) → List Bool)
    (cs : List (List F)) : List (List F) :=
  ((cs.zip (policy cs ++ List.replicate cs.length false)).filter
    fun p => p.2).map Prod.fst

/-- The commits a policy consultation retains. -/
def keptCommits (policy : List (List F) → List Bool)
    (cs : List (List F)) : List (List F) :=
  ((cs.zip (policy cs ++ List.replicate cs.length false)).filter
    fun p => !p.2).map Prod.fst

/-- Modelled from the spec: registering a new commit point.  The new
generation is appended to the ordered commit list, the deletion policy is
consulted, every commit it elects to delete has its files decreffed, and
only the retained commits stay tracked. -/
def commitStep (policy : List (List F) → List Bool) (st : State F)
    (newGen : List F) : State F :=
  { decRefAll st (deletedCommits policy (st.commits ++ [newGen])).flatten with
    commits := keptCommits policy (st.commits ++ [newGen]) }

/-- Modelled from the spec: `IndexFileDeleter.checkpoint(segmentInfos, isCommit)`
(the Go body at the cited lines is `panic("not implemented yet")`), after
section 4.4: incref every file named in the new generation; if this is a
commit, register the generation as a commit point, consult the deletion
policy and decref the files of every commit it deletes; decref every file
of the previously checkpointed generation; files whose count reaches zero
are deleted from the container immediately.  A committed generation's
references are held by its commit point, so `lastFiles` holds the new
generation's files only for a non-commit checkpoint. -/
def checkpoint (policy : List (List F) → List Bool) (st : State F)
    (newGen : List F) (isCommit : Bool) : State F :=
  let st1 := incRefAll (addToContainer st newGen) newGen
  let st2 := if isCommit then commitStep policy st1 newGen else st1
  { decRefAll st2 st.lastFiles with lastFiles := if isCommit then [] else newGen }

/-- A sequence of checkpoint calls `(generation, isCommit)` against a fixed
policy, starting from the freshly constructed deleter. -/
def runCheckpoints (policy : List (List F) → List Bool)
    (calls : List (List F × Bool)) : State F :=
  calls.foldl (fun s c => checkpoint policy s c.1 c.2) initState

/-- The number of currently-live generations/commits naming a file: the
retained commits naming it plus the uncommitted current generation if it
names it. -/
def liveRefs (st : State F) (f : F) : Int :=
  (commitCount f st.commits : Int) + (if f ∈ st.lastFiles then 1 else 0)

/-- The deleter's internal invariant: counts agree with the live
generations, the container holds exactly the positively-referenced files,
and every tracked generation is duplicate-free. -/
def Inv (st : State F) : Prop :=
  (∀ f, st.refCount f = liveRefs st f) ∧
  (∀ f, f ∈ st.container ↔ 0 < st.refCount f) ∧
  (∀ c ∈ st.commits, c.Nodup) ∧
  st.lastFiles.Nodup

/-- The keep-only-last-commit policy as deletion flags, for the C1 witness. -/
def keepLastFlags : List (List Nat) → List Bool :=
  fun cs => (List.range cs.length).map fun i => decide (i + 1 < cs.length)

end IndexFileDeleter

/-- Collecting the entries of `l` at indices `0 .. n-1` yields `l.take n`. -/
lemma filterMap_range_getElem (l : List α) :
    ∀ n : Nat, (List.range n).filterMap (fun i => l[i]?) = l.take n := by
  intro n
  induction n with
  | zero => simp
  | succ n ih =>
      rw [List.range_succ, List.filterMap_append, ih, List.take_succ]
      cases h : l[n]? <;> simp [h]

/-- C3: for every non-empty commit list, `KeepOnlyLastCommitDeletionPolicy.onCommit`
deletes exactly the commits before the last one (positionally, `dropLast`),
returns nil, and the last element is the one entry it leaves undeleted. -/
theorem keepOnlyLast_onCommit_deletes_all_but_last (commits : List α)
    (h : commits ≠ []) :
    KeepOnlyLastCommitDeletionPolicy.onCommit commits = (commits.dropLast, none) ∧
    commits = (KeepOnlyLastCommitDeletionPolicy.onCommit commits).1 ++
      [commits.getLast h] := by
  have h1 : KeepOnlyLastCommitDeletionPolicy.onCommit commits =
      (commits.dropLast, none) := by
    unfold KeepOnlyLastCommitDeletionPolicy.onCommit
    rw [filterMap_range_getElem, ← List.dropLast_eq_take]
  refine ⟨h1, ?_⟩
  rw [h1]
  exact (List.dropLast_append_getLast h).symm

/-- Witness for C3 at the concrete commit list `[1, 2, 3]`. -/
theorem keepOnlyLast_onCommit_deletes_all_but_last_witness :
    KeepOnlyLastCommitDeletionPolicy.onCommit [1, 2, 3] = ([1, 2], none) ∧
    [1, 2, 3] = (KeepOnlyLastCommitDeletionPolicy.onCommit [1, 2, 3]).1 ++ [3] :=
  keepOnlyLast_onCommit_deletes_all_but_last [1, 2, 3] (by decide)

/-- C4: `onInit` performs exactly the same deletions and returns exactly the
same result as `onCommit` on every commit list (its Go body is a direct
delegation). -/
theorem keepOnlyLast_onInit_eq_onCommit (commits : List α) :
    KeepOnlyLastCommitDeletionPolicy.onInit commits =
      KeepOnlyLastCommitDeletionPolicy.onCommit commits := rfl

/-- C10: on an empty or singleton commit list `onCommit` deletes nothing and
returns nil; the index loop never runs, so no out-of-bounds access occurs. -/
theorem keepOnlyLast_onCommit_short_list (commits : List α)
    (h : commits.length ≤ 1) :
    KeepOnlyLastCommitDeletionPolicy.onCommit commits = ([], none) := by
  unfold KeepOnlyLastCommitDeletionPolicy.onCommit
  have : commits.length - 1 = 0 := by omega
  rw [this]
  simp

/-- Witness for C10 at the concrete lists `[]` and `[7]`. -/
theorem keepOnlyLast_onCommit_short_list_witness :
    KeepOnlyLastCommitDeletionPolicy.onCommit ([] : List Nat) = ([], none) ∧
    KeepOnlyLastCommitDeletionPolicy.onCommit [7] = ([], none) :=
  ⟨keepOnlyLast_onCommit_short_list [] (by decide),
   keepOnlyLast_onCommit_short_list [7] (by decide)⟩

/-- Counterexample to C2 as stated: on the queue `[1, 2]` where merge `1`
fails, merge `2` is not executed and the returned error is merge 1's, but
the queue afterwards is empty, not `[2]`: the loop's post statement dequeued
merge `2` before the error check stopped it, so merge 2 is NOT still in the
queue. -/
theorem serialMerge_counterexample :
    SerialMergeScheduler.Merge mergeExecCE [1, 2] = ([1], [], some 7) ∧
    (SerialMergeScheduler.Merge mergeExecCE [1, 2]).2.1 ≠ [2] := by
  constructor
  · rfl
  · intro h
    simp [SerialMergeScheduler.Merge, mergeExecCE] at h

/-- C2 (amended): `Merge` executes queued merges one at a time in queue
order in the calling context; if every merge succeeds it drains the queue
completely and returns nil; the first failing merge stops execution and its
error is returned, with every later merge un-executed — however the merge
immediately after the failing one is dequeued (without being executed), and
only the merges after that one remain in the queue. -/
theorem serialMerge_spec (exec : M → Option E) :
    (∀ queue : List M, (∀ m ∈ queue, exec m = none) →
      SerialMergeScheduler.Merge exec queue = (queue, [], none)) ∧
    (∀ (pre post : List M) (mf : M) (e : E), (∀ m ∈ pre, exec m = none) →
      exec mf = some e →
      SerialMergeScheduler.Merge exec (pre ++ mf :: post) =
        (pre ++ [mf], post.drop 1, some e)) := by
  constructor
  · intro queue hq
    induction queue with
    | nil => rfl
    | cons m rest ih =>
        have hm : exec m = none := hq m (List.mem_cons_self m rest)
        have hrest := ih fun x hx => hq x (List.mem_cons_of_mem m hx)
        simp [SerialMergeScheduler.Merge, hm, hrest]
  · intro pre post mf e hpre hf
    induction pre with
    | nil => simp [SerialMergeScheduler.Merge, hf]
    | cons m rest ih =>
        have hm : exec m = none := hpre m (List.mem_cons_self m rest)
        have hrest := ih fun x hx => hpre x (List.mem_cons_of_mem m hx)
        simp [SerialMergeScheduler.Merge, hm, hrest]

/-- Witness for C2 (amended): an all-success queue drains completely, and on
the queue `[3, 1, 2]` (merge 1 fails with error 7 under `mergeExecCE`) the
executed merges are `[3, 1]`, the queue is left empty and error 7 is
returned. -/
theorem serialMerge_spec_witness :
    SerialMergeScheduler.Merge mergeExecCE [2, 3] = ([2, 3], [], none) ∧
    SerialMergeScheduler.Merge mergeExecCE [3, 1, 2] = ([3, 1], [], some 7) := by
  constructor
  · exact (serialMerge_spec mergeExecCE).1 [2, 3] (by decide)
  · have h := (serialMerge_spec mergeExecCE).2 [3] [2] 1 7 (by decide) (by decide)
    simpa using h

/-- Counterexample to C5 as stated: `ObtainWithin 2500` with an
always-failing Obtain does return a timeout error, but after only two
1000ms poll sleeps — its total sleeping time before the failure is
2 × `LOCK_POOL_INTERVAL` = 2000ms, strictly below the 2500ms lower edge of
the claimed 2.5-to-3.5-second failure window, so the code gives up before
the requested 2500ms have even elapsed and the claimed timing is false. -/
theorem obtainWithin_2500_counterexample :
    LockImpl.ObtainWithin alwaysFailObtain 2500 10 =
      some (LockOutcome.done ⟨false, some LockError.timeoutErr, 3, 2⟩) ∧
    ¬ (2500 ≤ (2 : Int) * LOCK_POOL_INTERVAL) := by
  refine ⟨?_, by decide⟩
  rfl

/-- C5 (amended): `ObtainWithin 2500` on a lock whose Obtain always returns
`(false, nil)` polls at the fixed 1000ms interval, makes 3 Obtain attempts
(at least two), and fails with a timeout error after exactly two poll
sleeps, i.e. 2 × `LOCK_POOL_INTERVAL` = 2000ms of sleeping — about 2.0
seconds after the call, before the requested 2500ms timeout has elapsed. -/
theorem obtainWithin_2500_times_out :
    LockImpl.ObtainWithin alwaysFailObtain 2500 10 =
      some (LockOutcome.done ⟨false, some LockError.timeoutErr, 3, 2⟩) ∧
    2 ≤ 3 ∧ (2 : Int) * LOCK_POOL_INTERVAL = 2000 ∧ (2000 : Int) < 2500 := by
  refine ⟨?_, by decide, by decide, by decide⟩
  rfl

/-- Counterexample to C6 as stated: with the invalid timeout `-5` and a
first Obtain attempt that returns an error, `ObtainWithin` makes that
obtain attempt (attempts = 1) and returns the Obtain error — it does not
panic, so the invalid parameter is never reported, and the report it would
otherwise make comes after (not before) the first obtain attempt. -/
theorem obtainWithin_invalid_timeout_counterexample :
    LockImpl.ObtainWithin errObtain (-5) 10 =
      some (LockOutcome.done ⟨false, some (LockError.obtainErr 42), 1, 0⟩) ∧
    LockImpl.ObtainWithin errObtain (-5) 10 ≠ some LockOutcome.panicked := by
  refine ⟨rfl, ?_⟩
  intro h
  rw [show LockImpl.ObtainWithin errObtain (-5) 10 =
    some (LockOutcome.done ⟨false, some (LockError.obtainErr 42), 1, 0⟩) from rfl] at h
  simp at h

/-- C6 (amended): an invalid timeout (a negative value other than the
wait-forever sentinel) is reported by a synchronous panic, but only after
the first lock-obtain attempt is made and only when that first attempt does
not return an error; if the first Obtain attempt returns an error, that
error is returned instead and the invalid timeout goes unreported. -/
theorem obtainWithin_invalid_timeout (obtain : Nat → Bool × Option E)
    (lockWaitTimeout : Int) (fuel : Nat)
    (h1 : lockWaitTimeout < 0) (h2 : lockWaitTimeout ≠ LOCK_OBTAIN_WAIT_FOREVER) :
    LockImpl.ObtainWithin obtain lockWaitTimeout fuel =
      match (obtain 0).2 with
      | some e => some (LockOutcome.done
          ⟨(obtain 0).1, some (LockError.obtainErr e), 1, 0⟩)
      | none => some LockOutcome.panicked := by
  unfold LockImpl.ObtainWithin
  cases h : (obtain 0).2 with
  | some e => rfl
  | none => simp [h1, h2]

/-- Witness for C6 (amended) at timeout `-5`: with an erroring first Obtain
the Obtain error is returned, and with a successful error-free first Obtain
the invalid timeout panics. -/
theorem obtainWithin_invalid_timeout_witness :
    LockImpl.ObtainWithin succeedObtain (-5) 3 = some LockOutcome.panicked := by
  have h := obtainWithin_invalid_timeout succeedObtain (-5) 3 (by decide) (by decide)
  simpa using h

/-- In the polling loop with the wait-forever sentinel the timeout branch is
unreachable: a terminating run exits only with the lock held, and its
returned error can only stem from the final Obtain call. -/
lemma obtainLoop_forever (obtain : Nat → Bool × Option E) (maxSleepCount : Int) :
    ∀ (fuel : Nat) (locked : Bool) (err : Option E) (sleepCount : Int)
      (attempts sleeps : Nat) (r : LockRun E),
      obtainLoop obtain LOCK_OBTAIN_WAIT_FOREVER maxSleepCount fuel locked err
        sleepCount attempts sleeps = some r →
      r.locked = true ∧ r.err ≠ some LockError.timeoutErr := by
  intro fuel
  induction fuel with
  | zero =>
      intro locked err sleepCount attempts sleeps r h
      cases locked with
      | true =>
          rw [obtainLoop] at h
          cases h
          cases err <;> simp
      | false => rw [obtainLoop] at h; cases h
  | succ fuel ih =>
      intro locked err sleepCount attempts sleeps r h
      cases locked with
      | true =>
          rw [obtainLoop] at h
          cases h
          cases err <;> simp
      | false =>
          rw [obtainLoop] at h
          simp only [LOCK_OBTAIN_WAIT_FOREVER] at h
          simp only [ne_eq, not_true_eq_false, false_and, if_false] at h
          exact ih _ _ _ _ _ _ h

/-- With an always-failing Obtain the wait-forever loop never terminates:
it runs out of any amount of fuel. -/
lemma obtainLoop_forever_diverges (maxSleepCount : Int) :
    ∀ (fuel : Nat) (sleepCount : Int) (attempts sleeps : Nat),
      obtainLoop (fun _ => (false, (none : Option Unit)))
        LOCK_OBTAIN_WAIT_FOREVER maxSleepCount fuel false none
        sleepCount attempts sleeps = none := by
  intro fuel
  induction fuel with
  | zero => intro _ _ _; rw [obtainLoop]
  | succ fuel ih =>
      intro sleepCount attempts sleeps
      rw [obtainLoop]
      simp only [LOCK_OBTAIN_WAIT_FOREVER, ne_eq, not_true_eq_false, false_and, if_false]
      exact ih _ _ _

/-- C7: with the wait-forever sentinel `-1`, `ObtainWithin` never returns a
timeout error: whenever it returns at all, either the lock was obtained (a
successful Obtain attempt), or the first Obtain attempt itself returned an
error which is passed through; and with an Obtain that always fails it
keeps polling indefinitely (no amount of loop fuel makes it return). -/
theorem obtainWithin_wait_forever (E : Type) :
    (∀ (obtain : Nat → Bool × Option E) (fuel : Nat) (r : LockRun E),
      LockImpl.ObtainWithin obtain LOCK_OBTAIN_WAIT_FOREVER fuel =
          some (LockOutcome.done r) →
      r.err ≠ some LockError.timeoutErr ∧
        (r.locked = true ∨ ∃ e, r.err = some (LockError.obtainErr e))) ∧
    (∀ fuel : Nat,
      LockImpl.ObtainWithin (fun _ => (false, (none : Option Unit)))
        LOCK_OBTAIN_WAIT_FOREVER fuel = none) := by
  constructor
  · intro obtain fuel r h
    unfold LockImpl.ObtainWithin at h
    revert h
    split
    · intro h
      cases h
      exact ⟨by simp, Or.inr ⟨_, rfl⟩⟩
    · rw [if_neg (by simp)]
      intro h
      rcases Option.map_eq_some'.mp h with ⟨r0, hr0, hr⟩
      cases hr
      have := obtainLoop_forever obtain _ fuel _ _ _ _ _ _ hr0
      exact ⟨this.2, Or.inl this.1⟩
  · intro fuel
    have h0 : LockImpl.ObtainWithin (fun _ => (false, (none : Option Unit)))
        LOCK_OBTAIN_WAIT_FOREVER fuel =
        Option.map LockOutcome.done
          (obtainLoop (fun _ => (false, (none : Option Unit)))
            LOCK_OBTAIN_WAIT_FOREVER
            (Int.tdiv LOCK_OBTAIN_WAIT_FOREVER LOCK_POOL_INTERVAL)
            fuel false none 0 1 0) := rfl
    rw [h0, obtainLoop_forever_diverges]
    rfl

/-- Witness for C7: instantiating the first conjunct at a lock whose first
Obtain attempt succeeds (and the second at fuel 4) discharges the
hypotheses concretely. -/
theorem obtainWithin_wait_forever_witness :
    (({ locked := true, err := none, attempts := 1, sleeps := 0 } :
        LockRun Unit).err ≠ some LockError.timeoutErr ∧
      (({ locked := true, err := none, attempts := 1, sleeps := 0 } :
        LockRun Unit).locked = true ∨
        ∃ e, ({ locked := true, err := none, attempts := 1, sleeps := 0 } :
          LockRun Unit).err = some (LockError.obtainErr e))) ∧
    LockImpl.ObtainWithin (fun _ => (false, (none : Option Unit)))
      LOCK_OBTAIN_WAIT_FOREVER 4 = none :=
  ⟨(obtainWithin_wait_forever Unit).1 onceObtain 1 _ (by rfl),
   (obtainWithin_wait_forever Unit).2 4⟩

/-- C8 evaluated at the failing input: on the single block `[10, 20, 30]`
at position 0 with a two-byte destination buffer `[0, 0]`, `ReadBytes`
leaves the buffer untouched and instead overwrites the store's first two
bytes with the buffer's contents (the Go code passes the arguments to
`copy` in reversed order), while still advancing the position by 2 and
returning `(2, nil)`.  The claim requires the buffer to become `[10, 20]`
and the store to stay `[10, 20, 30]`; the code does neither. -/
theorem forwardReader_ReadBytes_bug :
    ForwardBytesReader.ReadBytes [10, 20, 30] 0 [0, 0] =
      { block := [0, 0, 30], buf := [0, 0], pos := 2, n := 2, err := none } ∧
    (ForwardBytesReader.ReadBytes [10, 20, 30] 0 [0, 0]).buf ≠ [10, 20] ∧
    (ForwardBytesReader.ReadBytes [10, 20, 30] 0 [0, 0]).block ≠ [10, 20, 30] := by
  refine ⟨rfl, by decide, by decide⟩

/-- C9: for every position `pos` within the written byte range of a
multi-block store (`pos < numBlocks * blockSize`, with fewer than 2^32
blocks and `blockBits < 32`), `setPosition pos` followed by `getPosition`
returns exactly `pos`, and the block index it loads into `current` is in
bounds.  The decomposition is exact because `blockSize = 1 << blockBits`
and `blockMask = blockSize - 1`. -/
theorem setPosition_getPosition_roundtrip (blockBits numBlocks pos : Nat)
    (hbb : blockBits < 32) (hpos : pos < numBlocks * 2 ^ blockBits)
    (hnb : numBlocks < U32) :
    ByteStoreForwardReader.getPosition blockBits
        (ByteStoreForwardReader.setPosition blockBits pos) = (pos : Int) ∧
    (ByteStoreForwardReader.setPosition blockBits pos).bufferIndex < numBlocks := by
  have hidx : pos / 2 ^ blockBits < numBlocks :=
    Nat.div_lt_of_lt_mul (by rw [Nat.mul_comm]; exact hpos)
  refine ⟨?_, hidx⟩
  unfold ByteStoreForwardReader.getPosition ByteStoreForwardReader.setPosition
  have h1 : (pos / 2 ^ blockBits + 1) % U32 = pos / 2 ^ blockBits + 1 :=
    Nat.mod_eq_of_lt (by omega)
  have hdvd : 2 ^ blockBits ∣ U32 := pow_dvd_pow 2 (by omega)
  have h2 : (pos % U32) % 2 ^ blockBits = pos % 2 ^ blockBits :=
    Nat.mod_mod_of_dvd pos hdvd
  simp only [h1, h2]
  have hcast : ((pos / 2 ^ blockBits + 1 : Nat) : Int) - 1 =
      ((pos / 2 ^ blockBits : Nat) : Int) := by push_cast; ring
  rw [hcast]
  have h4 : pos / 2 ^ blockBits * 2 ^ blockBits + pos % 2 ^ blockBits = pos := by
    rw [Nat.mul_comm]
    exact Nat.div_add_mod pos (2 ^ blockBits)
  exact_mod_cast h4

/-- Witness for C9 at `blockBits = 2`, 3 blocks, position 7. -/
theorem setPosition_getPosition_roundtrip_witness :
    ByteStoreForwardReader.getPosition 2
        (ByteStoreForwardReader.setPosition 2 7) = (7 : Int) ∧
    (ByteStoreForwardReader.setPosition 2 7).bufferIndex < 3 :=
  setPosition_getPosition_roundtrip 2 3 7 (by decide) (by decide) (by decide)

namespace IndexFileDeleter

variable {F : Type} [DecidableEq F]

lemma liveRefs_nonneg (st : State F) (f : F) : 0 ≤ liveRefs st f := by
  unfold liveRefs
  by_cases hf : f ∈ st.lastFiles <;> simp [hf] <;> omega

lemma natCount_nodup (f : F) (l : List F) (h : l.Nodup) :
    natCount f l = if f ∈ l then 1 else 0 := by
  unfold natCount
  by_cases hf : f ∈ l
  · simp [hf, List.count_eq_one_of_mem h hf]
  · simp [hf, List.count_eq_zero_of_not_mem hf]

lemma incRefAll_refCount (l : List F) :
    ∀ (st : State F) (f : F),
      (incRefAll st l).refCount f = st.refCount f + natCount f l := by
  induction l with
  | nil => intro st f; simp [incRefAll, natCount]
  | cons a l ih =>
      intro st f
      have h := ih (incRef st a) f
      simp only [incRefAll, List.foldl_cons] at h ⊢
      rw [h]
      unfold natCount at *
      by_cases hfa : f = a <;>
        simp [incRef, hfa, List.count_cons] <;> omega

lemma incRefAll_container (l : List F) :
    ∀ st : State F, (incRefAll st l).container = st.container := by
  induction l with
  | nil => intro st; rfl
  | cons a l ih => intro st; simpa [incRefAll] using ih (incRef st a)

lemma incRefAll_commits (l : List F) :
    ∀ st : State F, (incRefAll st l).commits = st.commits := by
  induction l with
  | nil => intro st; rfl
  | cons a l ih => intro st; simpa [incRefAll] using ih (incRef st a)

lemma incRefAll_lastFiles (l : List F) :
    ∀ st : State F, (incRefAll st l).lastFiles = st.lastFiles := by
  induction l with
  | nil => intro st; rfl
  | cons a l ih => intro st; simpa [incRefAll] using ih (incRef st a)

lemma decRefAll_refCount (l : List F) :
    ∀ (st : State F) (f : F),
      (decRefAll st l).refCount f = st.refCount f - natCount f l := by
  induction l with
  | nil => intro st f; simp [decRefAll, natCount]
  | cons a l ih =>
      intro st f
      have h := ih (decRef st a) f
      simp only [decRefAll, List.foldl_cons] at h ⊢
      rw [h]
      unfold natCount at *
      by_cases hfa : f = a <;>
        simp [decRef, hfa, List.count_cons] <;> omega

lemma decRefAll_commits (l : List F) :
    ∀ st : State F, (decRefAll st l).commits = st.commits := by
  induction l with
  | nil => intro st; rfl
  | cons a l ih => intro st; simpa [decRefAll] using ih (decRef st a)

lemma decRefAll_lastFiles (l : List F) :
    ∀ st : State F, (decRefAll st l).lastFiles = st.lastFiles := by
  induction l with
  | nil => intro st; rfl
  | cons a l ih => intro st; simpa [decRefAll] using ih (decRef st a)

lemma decRef_preserves (st : State F) (a : F)
    (h : ∀ f, f ∈ st.container ↔ 0 < st.refCount f) :
    ∀ f, f ∈ (decRef st a).container ↔ 0 < (decRef st a).refCount f := by
  intro f
  by_cases hfa : f = a
  · subst hfa
    by_cases hle : st.refCount f - 1 ≤ 0 <;>
      simp [decRef, hle, List.mem_filter, h f] <;> omega
  · have hne : (f != a) = true := by simp [hfa]
    by_cases hle : st.refCount a - 1 ≤ 0 <;>
      simp [decRef, hle, hfa, List.mem_filter, hne, h f]

lemma decRefAll_preserves (l : List F) :
    ∀ st : State F, (∀ f, f ∈ st.container ↔ 0 < st.refCount f) →
      ∀ f, f ∈ (decRefAll st l).container ↔ 0 < (decRefAll st l).refCount f := by
  induction l with
  | nil => intro st h; exact h
  | cons a l ih =>
      intro st h
      simpa [decRefAll] using ih (decRef st a) (decRef_preserves st a h)

lemma addToContainer_mem (l : List F) :
    ∀ (c : List F) (x : F),
      (x ∈ l.foldl (fun c f => if f ∈ c then c else f :: c) c ↔ x ∈ c ∨ x ∈ l) := by
  induction l with
  | nil => intro c x; simp
  | cons a l ih =>
      intro c x
      simp only [List.foldl_cons]
      rw [ih]
      by_cases ha : a ∈ c
      · simp only [if_pos ha]
        constructor
        · rintro (hx | hx)
          · exact Or.inl hx
          · exact Or.inr (List.mem_cons_of_mem a hx)
        · rintro (hx | hx)
          · exact Or.inl hx
          · rcases List.mem_cons.mp hx with rfl | hx
            · exact Or.inl ha
            · exact Or.inr hx
      · simp only [if_neg ha, List.mem_cons]
        tauto

lemma addToContainer_refCount (st : State F) (l : List F) (f : F) :
    (addToContainer st l).refCount f = st.refCount f := rfl

lemma commitStep_container (policy : List (List F) → List Bool)
    (st : State F) (g : List F) :
    (commitStep policy st g).container =
      (decRefAll st (deletedCommits policy (st.commits ++ [g])).flatten).container :=
  rfl

lemma commitStep_refCount (policy : List (List F) → List Bool)
    (st : State F) (g : List F) (f : F) :
    (commitStep policy st g).refCount f =
      (decRefAll st (deletedCommits policy (st.commits ++ [g])).flatten).refCount f :=
  rfl

lemma mem_deletedCommits (policy : List (List F) → List Bool)
    (cs : List (List F)) : ∀ c ∈ deletedCommits policy cs, c ∈ cs := by
  intro c hc
  unfold deletedCommits at hc
  have hlen : cs.length ≤ (policy cs ++ List.replicate cs.length false).length := by
    simp
  have hsub := ((List.filter_sublist
    (cs.zip (policy cs ++ List.replicate cs.length false))).map Prod.fst).mem hc
  rwa [List.map_fst_zip _ _ hlen] at hsub

lemma mem_keptCommits (policy : List (List F) → List Bool)
    (cs : List (List F)) : ∀ c ∈ keptCommits policy cs, c ∈ cs := by
  intro c hc
  unfold keptCommits at hc
  have hlen : cs.length ≤ (policy cs ++ List.replicate cs.length false).length := by
    simp
  have hsub := ((List.filter_sublist
    (cs.zip (policy cs ++ List.replicate cs.length false))).map Prod.fst).mem hc
  rwa [List.map_fst_zip _ _ hlen] at hsub

lemma countP_fst_partition (q : α → Bool) (l : List (α × Bool)) :
    ((l.filter fun p => p.2).map Prod.fst).countP q +
      ((l.filter fun p => !p.2).map Prod.fst).countP q =
      (l.map Prod.fst).countP q := by
  induction l with
  | nil => simp
  | cons a l ih =>
      cases ha : a.2 <;>
        simp [List.filter_cons, ha, List.countP_cons, List.countP_map] at ih ⊢ <;>
        omega

lemma kept_add_deleted_count (policy : List (List F) → List Bool)
    (cs : List (List F)) (f : F) :
    commitCount f (keptCommits policy cs) + commitCount f (deletedCommits policy cs) =
      commitCount f cs := by
  unfold commitCount keptCommits deletedCommits
  have hlen : cs.length ≤ (policy cs ++ List.replicate cs.length false).length := by
    simp
  have h := countP_fst_partition (fun c => decide (f ∈ c))
    (cs.zip (policy cs ++ List.replicate cs.length false))
  rw [List.map_fst_zip _ _ hlen] at h
  omega

lemma natCount_flatten_nodup (f : F) (ls : List (List F))
    (h : ∀ c ∈ ls, c.Nodup) :
    natCount f ls.flatten = commitCount f ls := by
  induction ls with
  | nil => simp [natCount, commitCount]
  | cons c ls ih =>
      have hc : c.Nodup := h c (List.mem_cons_self c ls)
      have hrest := ih fun x hx => h x (List.mem_cons_of_mem c hx)
      unfold natCount commitCount at *
      rw [List.flatten_cons, List.count_append, List.countP_cons, hrest]
      have hcnt : c.count f = if f ∈ c then 1 else 0 := natCount_nodup f c hc
      by_cases hf : f ∈ c <;> simp [hf] at hcnt ⊢ <;> omega

lemma natCount_pos_iff (f : F) (l : List F) : f ∈ l ↔ 0 < natCount f l := by
  unfold natCount
  exact (List.count_pos_iff).symm

lemma inv_initState : Inv (initState : State F) := by
  refine ⟨fun f => ?_, fun f => ?_, ?_, ?_⟩ <;>
    simp [initState, liveRefs, commitCount, List.Nodup]

lemma inv_checkpoint (policy : List (List F) → List Bool) (st : State F)
    (newGen : List F) (isCommit : Bool) (hInv : Inv st) (hg : newGen.Nodup) :
    Inv (checkpoint policy st newGen isCommit) := by
  obtain ⟨h1, h2, h3, h4⟩ := hInv
  have h1nonneg : ∀ f, 0 ≤ st.refCount f := fun f => by
    rw [h1 f]; exact liveRefs_nonneg st f
  -- facts about st1 := incRefAll (addToContainer st newGen) newGen
  have e1r : ∀ f, (incRefAll (addToContainer st newGen) newGen).refCount f =
      st.refCount f + natCount f newGen := fun f => by
    rw [incRefAll_refCount, addToContainer_refCount]
  have e1c : (incRefAll (addToContainer st newGen) newGen).commits = st.commits := by
    rw [incRefAll_commits]; rfl
  have e1l : (incRefAll (addToContainer st newGen) newGen).lastFiles =
      st.lastFiles := by
    rw [incRefAll_lastFiles]; rfl
  have e1k : ∀ f, f ∈ (incRefAll (addToContainer st newGen) newGen).container ↔
      f ∈ st.container ∨ f ∈ newGen := fun f => by
    rw [incRefAll_container]
    exact addToContainer_mem newGen st.container f
  have i2' : ∀ f, f ∈ (incRefAll (addToContainer st newGen) newGen).container ↔
      0 < (incRefAll (addToContainer st newGen) newGen).refCount f := by
    intro f
    rw [e1k f, e1r f, h2 f]
    have := h1nonneg f
    by_cases hfg : f ∈ newGen
    · have : 0 < natCount f newGen := (natCount_pos_iff f newGen).mp hfg
      simp [hfg]; omega
    · have : natCount f newGen = 0 := by
        rw [natCount_nodup f newGen hg, if_neg hfg]
      simp [hfg, this]
  cases isCommit
  case false =>
    have fr : ∀ f, (checkpoint policy st newGen false).refCount f =
        st.refCount f + (natCount f newGen : Int) -
          (natCount f st.lastFiles : Int) := by
      intro f
      show (decRefAll (incRefAll (addToContainer st newGen) newGen)
        st.lastFiles).refCount f = _
      rw [decRefAll_refCount, e1r f]
    have fc : (checkpoint policy st newGen false).commits = st.commits := by
      show (decRefAll (incRefAll (addToContainer st newGen) newGen)
        st.lastFiles).commits = st.commits
      rw [decRefAll_commits, e1c]
    have fl : (checkpoint policy st newGen false).lastFiles = newGen := rfl
    have fk : ∀ f, f ∈ (checkpoint policy st newGen false).container ↔
        0 < (checkpoint policy st newGen false).refCount f := by
      intro f
      show f ∈ (decRefAll (incRefAll (addToContainer st newGen) newGen)
          st.lastFiles).container ↔
        0 < (decRefAll (incRefAll (addToContainer st newGen) newGen)
          st.lastFiles).refCount f
      exact decRefAll_preserves st.lastFiles _ i2' f
    refine ⟨fun f => ?_, fk, ?_, ?_⟩
    · rw [fr f]
      unfold liveRefs
      rw [fc, fl]
      have hlr := h1 f
      unfold liveRefs at hlr
      rw [natCount_nodup f newGen hg, natCount_nodup f st.lastFiles h4]
      split_ifs at hlr ⊢ <;> omega
    · rw [fc]; exact h3
    · rw [fl]; exact hg
  case true =>
    have hCAnodup : ∀ c ∈ st.commits ++ [newGen], c.Nodup := by
      intro c hc
      rcases List.mem_append.mp hc with h | h
      · exact h3 c h
      · rw [List.mem_singleton] at h
        subst h
        exact hg
    have hDnodup : ∀ c ∈ deletedCommits policy (st.commits ++ [newGen]), c.Nodup :=
      fun c hc => hCAnodup c (mem_deletedCommits policy _ c hc)
    have hKnodup : ∀ c ∈ keptCommits policy (st.commits ++ [newGen]), c.Nodup :=
      fun c hc => hCAnodup c (mem_keptCommits policy _ c hc)
    have fr : ∀ f, (checkpoint policy st newGen true).refCount f =
        st.refCount f + (natCount f newGen : Int) -
          (commitCount f (deletedCommits policy (st.commits ++ [newGen])) : Int) -
          (natCount f st.lastFiles : Int) := by
      intro f
      show (decRefAll
        (commitStep policy (incRefAll (addToContainer st newGen) newGen) newGen)
        st.lastFiles).refCount f = _
      rw [decRefAll_refCount, commitStep_refCount, decRefAll_refCount, e1r f, e1c,
        natCount_flatten_nodup f _ hDnodup]
    have fc : (checkpoint policy st newGen true).commits =
        keptCommits policy (st.commits ++ [newGen]) := by
      show (decRefAll
        (commitStep policy (incRefAll (addToContainer st newGen) newGen) newGen)
        st.lastFiles).commits = _
      rw [decRefAll_commits]
      show keptCommits policy
        ((incRefAll (addToContainer st newGen) newGen).commits ++ [newGen]) = _
      rw [e1c]
    have fl : (checkpoint policy st newGen true).lastFiles = [] := rfl
    have i2c : ∀ f,
        f ∈ (commitStep policy (incRefAll (addToContainer st newGen) newGen)
          newGen).container ↔
        0 < (commitStep policy (incRefAll (addToContainer st newGen) newGen)
          newGen).refCount f := by
      intro f
      rw [commitStep_container, commitStep_refCount]
      exact decRefAll_preserves _ _ i2' f
    have fk : ∀ f, f ∈ (checkpoint policy st newGen true).container ↔
        0 < (checkpoint policy st newGen true).refCount f := by
      intro f
      show f ∈ (decRefAll
          (commitStep policy (incRefAll (addToContainer st newGen) newGen) newGen)
          st.lastFiles).container ↔
        0 < (decRefAll
          (commitStep policy (incRefAll (addToContainer st newGen) newGen) newGen)
          st.lastFiles).refCount f
      exact decRefAll_preserves st.lastFiles _ i2c f
    refine ⟨fun f => ?_, fk, ?_, ?_⟩
    · rw [fr f]
      unfold liveRefs
      rw [fc, fl]
      have hlr := h1 f
      unfold liveRefs at hlr
      have hkd := kept_add_deleted_count policy (st.commits ++ [newGen]) f
      have hCA : commitCount f (st.commits ++ [newGen]) =
          commitCount f st.commits + if f ∈ newGen then 1 else 0 := by
        unfold commitCount
        rw [List.countP_append]
        by_cases hfg : f ∈ newGen <;> simp [hfg]
      rw [natCount_nodup f newGen hg, natCount_nodup f st.lastFiles h4]
      simp only [List.not_mem_nil, if_false]
      split_ifs at hlr hCA ⊢ <;> omega
    · rw [fc]; exact hKnodup
    · rw [fl]; exact List.nodup_nil

end IndexFileDeleter

/-- C1: spec-modelled reference-counting invariant of the Index File
Deleter.  For every deletion policy and every sequence of
`checkpoint(generation, isCommit)` calls (each generation a duplicate-free
file list), after the sequence — and hence after every prefix of it, i.e.
at every moment — each file's reference count equals exactly the number of
currently-live generations/commits naming it, never goes negative, and any
file whose count is zero is not in the container (it was deleted
immediately when its count reached zero). -/
theorem indexFileDeleter_refCount_invariant {F : Type} [DecidableEq F]
    (policy : List (List F) → List Bool) (calls : List (List F × Bool))
    (hcalls : ∀ gc ∈ calls, gc.1.Nodup) (f : F) :
    (IndexFileDeleter.runCheckpoints policy calls).refCount f =
      IndexFileDeleter.liveRefs (IndexFileDeleter.runCheckpoints policy calls) f ∧
    0 ≤ (IndexFileDeleter.runCheckpoints policy calls).refCount f ∧
    ((IndexFileDeleter.runCheckpoints policy calls).refCount f = 0 →
      f ∉ (IndexFileDeleter.runCheckpoints policy calls).container) := by
  unfold IndexFileDeleter.runCheckpoints
  have key : ∀ (cs : List (List F × Bool)) (st : IndexFileDeleter.State F),
      IndexFileDeleter.Inv st → (∀ gc ∈ cs, gc.1.Nodup) →
      IndexFileDeleter.Inv
        (cs.foldl (fun s c => IndexFileDeleter.checkpoint policy s c.1 c.2) st) := by
    intro cs
    induction cs with
    | nil => intro st h _; exact h
    | cons c cs ih =>
        intro st h hcs
        simp only [List.foldl_cons]
        exact ih _
          (IndexFileDeleter.inv_checkpoint policy st c.1 c.2 h
            (hcs c (List.mem_cons_self c cs)))
          fun gc hgc => hcs gc (List.mem_cons_of_mem c hgc)
  have hInv := key calls IndexFileDeleter.initState IndexFileDeleter.inv_initState hcalls
  obtain ⟨p1, p2, -, -⟩ := hInv
  refine ⟨p1 f, ?_, ?_⟩
  · rw [p1 f]
    exact IndexFileDeleter.liveRefs_nonneg _ f
  · intro h0 hmem
    have hpos := (p2 f).mp hmem
    omega

/-- Witness for C1: two committed generations `[1, 2]` then `[2, 3]` under
the keep-only-last policy, checked for file 1 (whose count drops to zero
when the first commit is deleted). -/
theorem indexFileDeleter_refCount_invariant_witness :
    (IndexFileDeleter.runCheckpoints IndexFileDeleter.keepLastFlags
        [([1, 2], true), ([2, 3], true)]).refCount 1 =
      IndexFileDeleter.liveRefs
        (IndexFileDeleter.runCheckpoints IndexFileDeleter.keepLastFlags
          [([1, 2], true), ([2, 3], true)]) 1 ∧
    0 ≤ (IndexFileDeleter.runCheckpoints IndexFileDeleter.keepLastFlags
        [([1, 2], true), ([2, 3], true)]).refCount 1 ∧
    ((IndexFileDeleter.runCheckpoints IndexFileDeleter.keepLastFlags
        [([1, 2], true), ([2, 3], true)]).refCount 1 = 0 →
      1 ∉ (IndexFileDeleter.runCheckpoints IndexFileDeleter.keepLastFlags
        [([1, 2], true), ([2, 3], true)]).container) :=
  indexFileDeleter_refCount_invariant IndexFileDeleter.keepLastFlags
    [([1, 2], true), ([2, 3], true)] (by decide) 1

end GoLucene
